import Mathlib

/-!
Verification of the expo-native-codegen core pipeline: a shallow embedding of
the intermediate representation (IR) builder (`src/ir-builder.ts`, `src/types.ts`)
and of the Kotlin emitter (`kotlin-codegen` module), together with proofs about
duplicate detection, cycle detection, topological ordering, and the Kotlin
rendering rules for enums and records.

Conventions of the embedding:
- TypeScript string/number values on enum members are modelled by `EnumValue`
  (numbers as `Int`; JavaScript `toString` on an integer is decimal, matching
  `Int`'s `toString`).
- Thrown JavaScript `Error`s become `Except CodegenError`; each constructor of
  `CodegenError` corresponds to one `throw` site (its message template).
- The DFS of `sortDeclarationsByDependencies` is modelled with an explicit
  fuel parameter (`CodegenError.outOfFuel` marks exhaustion).  The source has
  no fuel; `visitAllDecls_no_outOfFuel` proves the chosen fuel is never
  exhausted, so the model and the source agree on all inputs.
- JavaScript `Set` objects that are only used for membership tests are
  modelled as `List String`; the `dependencies` set, whose insertion order is
  observed via `Array.from`, is modelled as a duplicate-free list that keeps
  first insertions.  The `Map` built in `sortDeclarationsByDependencies`
  (last entry wins, as for JavaScript `Map` construction) is `lookupDecl`.
-/

namespace ExpoCodegen

/-- Errors thrown by the pipeline; one constructor per `throw` site. -/
inductive CodegenError
  /-- thrown by `resolveType`: "Unsupported TypeScript type: ..." (also used for
  object shapes falling through every branch of `resolveType`). -/
  | unsupportedType (displayName : String)
  /-- thrown by `resolveType`: "Unsupported inline union type: ...". -/
  | unsupportedInlineUnion
  /-- thrown by `resolveTypeAliasDeclaration`: "Type alias ... is not a union type". -/
  | aliasNotUnion (aliasName : String)
  /-- thrown by `resolveTypeAliasDeclaration`: "Unsupported literal type in type alias ...". -/
  | unsupportedAliasLiteral (aliasName : String)
  /-- thrown by `buildIntermediateRepresentation`: "Duplicate declaration found: ...". -/
  | duplicateDeclaration (name : String)
  /-- thrown by `visit` in `sortDeclarationsByDependencies`:
  "Circular dependency detected involving ...". -/
  | circularDependency (name : String)
  /-- thrown by `getEnumDefaultValue`: "Enum ... has no members". -/
  | enumNoMembers (enumName : String)
  /-- modelling artifact: the DFS fuel ran out (proved unreachable below). -/
  | outOfFuel
deriving DecidableEq, Repr

/-- The value of an enum member in the IR: a string or a number. -/
inductive EnumValue
  | str (s : String)
  | num (n : Int)
deriving DecidableEq, Repr

/-- JavaScript `value.toString()` as used by the emitter (decimal for integers,
identity for strings). -/
def EnumValue.toStr : EnumValue → String
  | .str s => s
  | .num n => toString n

/-- Such a member of an `IntermediateEnumDeclaration` (`types.ts`). -/
structure EnumMember where
  name : String
  value : EnumValue
deriving DecidableEq, Repr

/-- The IR type taxonomy (`IntermediateType` in `types.ts`). -/
inductive IntermediateType
  | string
  | number
  | boolean
  | any
  | byteArray
  | array (elementType : IntermediateType)
  | map (keyType valueType : IntermediateType)
  | enum (name : String)
  | record (name : String)
deriving DecidableEq, Repr

/-- One property of a record declaration (`RecordProperty` in `types.ts`). -/
structure RecordProperty where
  name : String
  type : IntermediateType
  isOptional : Bool
deriving DecidableEq, Repr

/-- An enum declaration in the IR (`IntermediateEnumDeclaration`). -/
structure IntermediateEnumDeclaration where
  name : String
  members : List EnumMember
deriving DecidableEq, Repr

/-- A record declaration in the IR (`IntermediateRecordDeclaration`). -/
structure IntermediateRecordDeclaration where
  name : String
  properties : List RecordProperty
deriving DecidableEq, Repr

/-- An IR declaration (`IntermediateDeclaration` in `types.ts`): the tagged
union of enum and record declarations. -/
inductive IntermediateDeclaration
  | enum (e : IntermediateEnumDeclaration)
  | record (r : IntermediateRecordDeclaration)
deriving DecidableEq, Repr

/-- The `name` field shared by both declaration kinds. -/
def IntermediateDeclaration.name : IntermediateDeclaration → String
  | .enum e => e.name
  | .record r => r.name

/-- Member classification inside a union type, per the external parser's
capability set (string literal / number literal / null / undefined / other). -/
inductive TSUnionMember
  | strLit (s : String)
  | numLit (n : Int)
  | nullLit
  | undefinedLit
  | otherMember
deriving DecidableEq, Repr

/-- A ts-morph `Type`, modelled by the classification that `resolveType`
queries: the branches of its `if` chain are mutually exclusive, so the
chain becomes a `match`.  `tsArray` always carries its element type and
`tsRecordOf` both arguments (the "missing element/argument" throws of the
source are unrepresentable here).  `tsUnion` carries not the display text,
only the optional alias name and the members.  `tsObjectShape` is an
anonymous object type (an object-shaped type-alias target): it satisfies
none of the predicates `resolveType` tests, and `isUnion()` is false. -/
inductive TSType
  | tsString
  | tsNumber
  | tsBoolean
  | tsAny
  | tsUint8Array
  | tsArray (elementType : TSType)
  | tsRecordOf (keyType valueType : TSType)
  | tsInterfaceRef (name : String)
  | tsEnumRef (name : String)
  | tsUnion (aliasName : Option String) (members : List TSUnionMember)
  | tsObjectShape (fieldNames : List String)
  | tsOther (displayName : String)
deriving DecidableEq, Repr

/-- A property signature of a TypeScript interface, as the external parser
exposes it: name, question token, nullability of the declared type, and the
non-nullable variant of the declared type (`getNonNullableType`). -/
structure TSPropertySig where
  name : String
  hasQuestionToken : Bool
  isNullable : Bool
  nonNullableType : TSType
deriving DecidableEq, Repr

/-- A member of a TypeScript enum declaration: `getValue()` may be undefined,
hence the `Option`. -/
structure TSEnumMemberSig where
  name : String
  value : Option EnumValue
deriving DecidableEq, Repr

/-- A TypeScript declaration (`TSDeclaration` in `types.ts`): enum, interface
or type alias. -/
inductive TSDeclaration
  | enumDecl (name : String) (members : List TSEnumMemberSig)
  | interfaceDecl (name : String) (properties : List TSPropertySig)
  | typeAliasDecl (name : String) (target : TSType)
deriving DecidableEq, Repr

/-- Conversion of a TypeScript type to an IR type (`resolveType` in
`ir-builder.ts`). -/
def resolveType : TSType → Except CodegenError IntermediateType
  | .tsString => .ok .string
  | .tsNumber => .ok .number
  | .tsBoolean => .ok .boolean
  | .tsAny => .ok .any
  | .tsUint8Array => .ok .byteArray
  | .tsArray elementType =>
    match resolveType elementType with
    | .error e => .error e
    | .ok t => .ok (.array t)
  | .tsRecordOf keyType valueType =>
    match resolveType keyType with
    | .error e => .error e
    | .ok kt =>
      match resolveType valueType with
      | .error e => .error e
      | .ok vt => .ok (.map kt vt)
  | .tsInterfaceRef n => .ok (.record n)
  | .tsEnumRef n => .ok (.enum n)
  | .tsUnion (some aliasName) _ => .ok (.enum aliasName)
  | .tsUnion none _ => .error .unsupportedInlineUnion
  | .tsObjectShape _ => .error (.unsupportedType "object shape")
  | .tsOther displayName => .error (.unsupportedType displayName)

/-- Resolution of an enum declaration (`resolveEnumDeclaration`): a member's
value is `getValue() ?? getName()`.  Total: no heterogeneity check exists. -/
def resolveEnumDeclaration (name : String) (members : List TSEnumMemberSig) :
    IntermediateEnumDeclaration :=
  ⟨name, members.map fun m => ⟨m.name, m.value.getD (.str m.name)⟩⟩

/-- Resolution of an interface declaration (`resolveInterfaceDeclaration`):
`isOptional` is question token or nullability; the IR type resolves the
non-nullable type. -/
def resolveInterfaceDeclaration (name : String) (properties : List TSPropertySig) :
    Except CodegenError IntermediateRecordDeclaration :=
  match properties.mapM (fun p =>
      (match resolveType p.nonNullableType with
      | .error e => .error e
      | .ok resolvedType =>
        .ok { name := p.name, type := resolvedType,
              isOptional := p.hasQuestionToken || p.isNullable } :
        Except CodegenError RecordProperty)) with
  | .error e => .error e
  | .ok props => .ok ⟨name, props⟩

/-- Resolution of a type-alias declaration (`resolveTypeAliasDeclaration`):
only unions of string/number literals are supported; they become enums whose
member names are the literals' textual forms.  A non-union alias target
(an object shape included) throws "Type alias ... is not a union type". -/
def resolveTypeAliasDeclaration (name : String) (target : TSType) :
    Except CodegenError IntermediateEnumDeclaration :=
  match target with
  | .tsUnion _ unionTypes =>
    match unionTypes.mapM (fun t =>
        (match t with
        | .strLit s => .ok ⟨s, .str s⟩
        | .numLit n => .ok ⟨toString n, .num n⟩
        | _ => .error (.unsupportedAliasLiteral name) :
        Except CodegenError EnumMember)) with
    | .error e => .error e
    | .ok members => .ok ⟨name, members⟩
  | _ => .error (.aliasNotUnion name)

/-- Resolution of one TypeScript declaration (`resolveDeclaration`). -/
def resolveDeclaration : TSDeclaration → Except CodegenError IntermediateDeclaration
  | .enumDecl n ms => .ok (.enum (resolveEnumDeclaration n ms))
  | .interfaceDecl n ps =>
    match resolveInterfaceDeclaration n ps with
    | .error e => .error e
    | .ok r => .ok (.record r)
  | .typeAliasDecl n t =>
    match resolveTypeAliasDeclaration n t with
    | .error e => .error e
    | .ok e => .ok (.enum e)

/-- Dependency collection over one IR type (`collectTypeDependencies`): the
`Set` is modelled as a first-insertion-ordered duplicate-free list. -/
def collectTypeDependencies : IntermediateType → List String → List String
  | .enum n, deps => if n ∈ deps then deps else deps ++ [n]
  | .record n, deps => if n ∈ deps then deps else deps ++ [n]
  | .array elementType, deps => collectTypeDependencies elementType deps
  | .map keyType valueType, deps =>
    collectTypeDependencies valueType (collectTypeDependencies keyType deps)
  | _, deps => deps

/-- Dependencies of a declaration (`collectDependencies`): the distinct names
referenced by a record's property types; enums have none. -/
def collectDependencies : IntermediateDeclaration → List String
  | .record r => r.properties.foldl (fun deps p => collectTypeDependencies p.type deps) []
  | .enum _ => []

/-- State of the depth-first sort: the output list and the `visited` /
`visiting` sets (`visiting` behaves as a stack: names are pushed on entry and
the same name is removed on exit). -/
structure SortState where
  sorted : List IntermediateDeclaration
  visited : List String
  visiting : List String
deriving DecidableEq, Repr

/-- The `declMap` lookup: a JavaScript `Map` built from `(name, decl)` entries,
where a later entry with the same name overwrites an earlier one. -/
def lookupDecl : List IntermediateDeclaration → String → Option IntermediateDeclaration
  | [], _ => none
  | d :: rest, n =>
    match lookupDecl rest n with
    | some r => some r
    | none => if d.name = n then some d else none

/-- The loop over the dependency names inside `visit`: look each name up in
`declMap` and, when found, visit it.  Parametrized by the step function so
that `visit` below is structurally recursive on its fuel. -/
def visitDeps (all : List IntermediateDeclaration)
    (vstep : IntermediateDeclaration → SortState → Except CodegenError SortState) :
    List String → SortState → Except CodegenError SortState
  | [], st => .ok st
  | depName :: rest, st =>
    match lookupDecl all depName with
    | some depDecl =>
      match vstep depDecl st with
      | .error e => .error e
      | .ok st1 => visitDeps all vstep rest st1
    | none => visitDeps all vstep rest st

/-- The recursive `visit` of `sortDeclarationsByDependencies`: revisiting a
name on the stack throws the circular-dependency error, a visited name
returns, otherwise the declaration's dependencies are visited and the
declaration is appended to the output. -/
def visit (all : List IntermediateDeclaration) :
    Nat → IntermediateDeclaration → SortState → Except CodegenError SortState
  | 0, _, _ => .error .outOfFuel
  | fuel + 1, decl, st =>
    if decl.name ∈ st.visiting then .error (.circularDependency decl.name)
    else if decl.name ∈ st.visited then .ok st
    else
      match visitDeps all (fun d s => visit all fuel d s) (collectDependencies decl)
          { st with visiting := decl.name :: st.visiting } with
      | .error e => .error e
      | .ok st2 =>
        .ok { sorted := st2.sorted ++ [decl],
              visited := decl.name :: st2.visited,
              visiting := st2.visiting.erase decl.name }

/-- The top-level loop of `sortDeclarationsByDependencies`: visit every
declaration in input order. -/
def visitAllDecls (all : List IntermediateDeclaration) (fuel : Nat) :
    List IntermediateDeclaration → SortState → Except CodegenError SortState
  | [], st => .ok st
  | d :: rest, st =>
    match visit all fuel d st with
    | .error e => .error e
    | .ok st1 => visitAllDecls all fuel rest st1

/-- Topological sort of the declarations by their dependencies
(`sortDeclarationsByDependencies`).  The fuel `declarations.length + 1`
bounds the DFS depth; `visitAllDecls_no_outOfFuel` shows it suffices. -/
def sortDeclarationsByDependencies (declarations : List IntermediateDeclaration) :
    Except CodegenError (List IntermediateDeclaration) :=
  match visitAllDecls declarations (declarations.length + 1) declarations ⟨[], [], []⟩ with
  | .error e => .error e
  | .ok st => .ok st.sorted

/-- The duplicate-rejecting resolution pass of `buildIntermediateRepresentation`
(its `reduce` over the input declarations with the `seenNames` set). -/
def resolveDeclarationList :
    List TSDeclaration → List String → List IntermediateDeclaration →
    Except CodegenError (List IntermediateDeclaration)
  | [], _, acc => .ok acc
  | d :: rest, seenNames, acc =>
    match resolveDeclaration d with
    | .error e => .error e
    | .ok resolved =>
      if resolved.name ∈ seenNames then .error (.duplicateDeclaration resolved.name)
      else resolveDeclarationList rest (resolved.name :: seenNames) (acc ++ [resolved])

/-- The IR builder (`buildIntermediateRepresentation`): resolve all
declarations, rejecting duplicate names, then topologically sort. -/
def buildIntermediateRepresentation (declarations : List TSDeclaration) :
    Except CodegenError (List IntermediateDeclaration) :=
  match resolveDeclarationList declarations [] [] with
  | .error e => .error e
  | .ok allDeclarations => sortDeclarationsByDependencies allDeclarations

/-! The Kotlin emitter (`kotlin-codegen` module).  In the source,
`generateKotlinEnumFromIR` and `generateKotlinRecordFromIR` open with a
defensive `kind` check that the static types of this embedding make
unreachable (each function receives the declaration of the right kind), so
those two `throw` sites have no counterpart here. -/

/-- The Kotlin configuration (`CodegenConfig["kotlin"]`). -/
structure KotlinConfig where
  packageName : String
deriving DecidableEq, Repr

/-- A Kotlin type together with its default value (`KotlinType`). -/
structure KotlinType where
  type : String
  defaultValue : String
deriving DecidableEq, Repr

/-- The enum-declaration search performed by `mapIntermediateTypeToKotlin`:
`declarations.find` of the first enum declaration with the given name. -/
def findEnumDecl (declarations : List IntermediateDeclaration) (n : String) :
    Option IntermediateDeclaration :=
  declarations.find? fun d =>
    match d with
    | .enum e => e.name = n
    | .record _ => false

/-- The enum default value (`getEnumDefaultValue`): the first member, with an
underscore prefix when the member arose from a numeric literal-union alias
(its name is the decimal form of its numeric value); an enum without members
throws. -/
def getEnumDefaultValue (enumDecl : IntermediateEnumDeclaration) :
    Except CodegenError String :=
  match enumDecl.members with
  | [] => .error (.enumNoMembers enumDecl.name)
  | firstMember :: _ =>
    let isNumericTypeAliasUnion : Bool :=
      match firstMember.value with
      | .num v => firstMember.name = toString v
      | .str _ => false
    let caseName :=
      if isNumericTypeAliasUnion then "_" ++ firstMember.name else firstMember.name
    .ok (enumDecl.name ++ "." ++ caseName)

/-- Mapping of an IR type to a Kotlin type and default value
(`mapIntermediateTypeToKotlin`). -/
def mapIntermediateTypeToKotlin (type : IntermediateType)
    (declarations : List IntermediateDeclaration) : Except CodegenError KotlinType :=
  match type with
  | .string => .ok ⟨"String", "\"\""⟩
  | .number => .ok ⟨"Double", "0.0"⟩
  | .boolean => .ok ⟨"Boolean", "false"⟩
  | .any => .ok ⟨"Any", "mapOf()"⟩
  | .byteArray => .ok ⟨"ByteArray", "ByteArray(0)"⟩
  | .array elementType =>
    match mapIntermediateTypeToKotlin elementType declarations with
    | .error e => .error e
    | .ok elementKotlin => .ok ⟨"List<" ++ elementKotlin.type ++ ">", "listOf()"⟩
  | .map keyType valueType =>
    match mapIntermediateTypeToKotlin valueType declarations with
    | .error e => .error e
    | .ok valueKotlin =>
      match mapIntermediateTypeToKotlin keyType declarations with
      | .error e => .error e
      | .ok keyKotlin =>
        .ok ⟨"Map<" ++ keyKotlin.type ++ ", " ++ valueKotlin.type ++ ">", "mapOf()"⟩
  | .enum n =>
    match findEnumDecl declarations n with
    | some (.enum enumDecl) =>
      match getEnumDefaultValue enumDecl with
      | .error e => .error e
      | .ok defaultValue => .ok ⟨n, defaultValue⟩
    | _ => .ok ⟨n, n ++ "()"⟩
  | .record n => .ok ⟨n, n ++ "()"⟩

/-- Whether some member's value is a string (`hasStringInitializer` in
`generateKotlinEnumFromIR`). -/
def enumHasStringInitializer (members : List EnumMember) : Bool :=
  members.any fun m =>
    match m.value with
    | .str _ => true
    | .num _ => false

/-- Rendering of one enum member (the `members.map` closure of
`generateKotlinEnumFromIR`): numeric enums get an underscore prefix when the
member name is the value's decimal form; string enums quote the value. -/
def kotlinEnumCase (kotlinType : String) (member : EnumMember) : String :=
  if kotlinType = "Int" then
    let caseName :=
      if member.name = member.value.toStr then "_" ++ member.name else member.name
    "  " ++ caseName ++ "(" ++ member.value.toStr ++ ")"
  else
    "  " ++ member.name ++ "(\"" ++ member.value.toStr ++ "\")"

/-- Rendering of an enum declaration (`generateKotlinEnumFromIR`): the
discriminant type is `String` when some member value is a string, else
`Int`. -/
def generateKotlinEnumFromIR (enumDecl : IntermediateEnumDeclaration) : String :=
  let kotlinType := if enumHasStringInitializer enumDecl.members then "String" else "Int"
  let cases := String.intercalate ",\n" (enumDecl.members.map (kotlinEnumCase kotlinType))
  "enum class " ++ enumDecl.name ++ "(val value: " ++ kotlinType ++
    ") : Enumerable \x7b\n" ++ cases ++ "\n\x7d"

/-- Rendering of one record property (the `properties.map` closure of
`generateKotlinRecordFromIR`): an optional property gets a nullable type and
the `null` default, otherwise the type-specific default. -/
def kotlinPropertyField (declarations : List IntermediateDeclaration)
    (property : RecordProperty) : Except CodegenError String :=
  match mapIntermediateTypeToKotlin property.type declarations with
  | .error e => .error e
  | .ok kotlinType =>
    let finalKotlinType :=
      if property.isOptional then kotlinType.type ++ "?" else kotlinType.type
    let finalDefaultValue :=
      if property.isOptional then "null" else kotlinType.defaultValue
    .ok ("  @Field\n  val " ++ property.name ++ ": " ++ finalKotlinType ++
      " = " ++ finalDefaultValue)

/-- Rendering of a record declaration (`generateKotlinRecordFromIR`). -/
def generateKotlinRecordFromIR (recordDecl : IntermediateRecordDeclaration)
    (allDeclarations : List IntermediateDeclaration) : Except CodegenError String :=
  if recordDecl.properties.isEmpty then
    .ok ("class " ++ recordDecl.name ++ " : Record \x7b\n\x7d")
  else
    match recordDecl.properties.mapM (kotlinPropertyField allDeclarations) with
    | .error e => .error e
    | .ok propertyFields =>
      .ok ("class " ++ recordDecl.name ++ " : Record \x7b\n" ++
        String.intercalate "\n\n" propertyFields ++ "\n\x7d")

/-- The Kotlin emitter over the ordered IR (`generateKotlinCodeFromIR`):
enums first, then records, joined and prefixed by the package header; an
empty body yields the empty string. -/
def generateKotlinCodeFromIR (irDeclarations : List IntermediateDeclaration)
    (config : KotlinConfig) : Except CodegenError String :=
  let kotlinEnums := String.intercalate "\n\n"
    ((irDeclarations.filterMap fun d =>
        match d with
        | .enum e => some e
        | .record _ => none).map generateKotlinEnumFromIR)
  match (irDeclarations.filterMap fun d =>
      match d with
      | .record r => some r
      | .enum _ => none).mapM
      (fun r => generateKotlinRecordFromIR r irDeclarations) with
  | .error e => .error e
  | .ok recordTexts =>
    let kotlinRecords := String.intercalate "\n\n" recordTexts
    let kotlinCode := String.intercalate "\n\n"
      ([kotlinEnums, kotlinRecords].filter fun s => ¬ s = "")
    if kotlinCode = "" then .ok ""
    else
      .ok ("package " ++ config.packageName ++
        "\n\nimport expo.modules.kotlin.*\n\n" ++ kotlinCode)

/-! Specification-side definitions used to state the claims. -/

/-- Textuality of an enum member value: is it a string? -/
def EnumValue.isTextual : EnumValue → Prop
  | .str _ => True
  | .num _ => False

instance (v : EnumValue) : Decidable v.isTextual := by
  cases v <;> simp [EnumValue.isTextual] <;> infer_instance

/-- Does every enum reference inside a type resolve, in the given declaration
list, to an enum declaration that has at least one member?  This is the
specification's global invariant that named references resolve, restricted to
what the Kotlin default table consults. -/
def EnumRefsResolved (declarations : List IntermediateDeclaration) :
    IntermediateType → Prop
  | .array t => EnumRefsResolved declarations t
  | .map k v => EnumRefsResolved declarations k ∧ EnumRefsResolved declarations v
  | .enum n => ∃ e, findEnumDecl declarations n = some (.enum e) ∧ e.members ≠ []
  | _ => True

/-- The Kotlin default-value table as the claim states it: string → `""`,
number → `0.0`, boolean → `false`, array → `listOf()`, map and any →
`mapOf()`, byte-array → `ByteArray(0)`, named record → zero-argument
constructor call, named enum → that enum's first declared member (as a
legalized case identifier); `none` when the referenced enum is missing or
memberless, where the claim's table gives no answer. -/
def claimKotlinDefault (declarations : List IntermediateDeclaration) :
    IntermediateType → Option String
  | .string => some "\"\""
  | .number => some "0.0"
  | .boolean => some "false"
  | .any => some "mapOf()"
  | .byteArray => some "ByteArray(0)"
  | .array _ => some "listOf()"
  | .map _ _ => some "mapOf()"
  | .record n => some (n ++ "()")
  | .enum n =>
    match findEnumDecl declarations n with
    | some (.enum e) =>
      match e.members with
      | [] => none
      | m :: _ =>
        some (e.name ++ "." ++
          (if (match m.value with
               | .num v => m.name = toString v
               | .str _ => false : Bool)
           then "_" ++ m.name else m.name))
    | _ => none

/-- Every enum declaration of the list has a nonempty member list (record
declarations pass vacuously). -/
def enumMembersNonempty : IntermediateDeclaration → Prop
  | .enum e => e.members ≠ []
  | .record _ => True

instance (d : IntermediateDeclaration) : Decidable (enumMembersNonempty d) := by
  cases d <;> simp [enumMembersNonempty] <;> infer_instance

/-- Names of a declaration list, in order. -/
def declNames (l : List IntermediateDeclaration) : List String :=
  l.map IntermediateDeclaration.name

/-- Dependency-first ordering: walking the list left to right with the names
already emitted in `seen`, every dependency of the current declaration that
names a declaration of `all` has already been emitted. -/
def DepsBeforeList (all : List IntermediateDeclaration) :
    List IntermediateDeclaration → List String → Prop
  | [], _ => True
  | d :: rest, seen =>
    (∀ x ∈ collectDependencies d, x ∈ declNames all → x ∈ seen) ∧
    DepsBeforeList all rest (seen ++ [d.name])

/-- The name-reference graph: `a` references `b` when the declaration that the
`declMap` of `all` associates with `a` lists `b` among its dependencies. -/
def Edge (all : List IntermediateDeclaration) (a b : String) : Prop :=
  ∃ da, lookupDecl all a = some da ∧ b ∈ collectDependencies da

/-- A nonempty edge path from `a` to `b` through the listed waypoints. -/
def PathFrom (all : List IntermediateDeclaration) : String → List String → String → Prop
  | a, [], b => Edge all a b
  | a, w :: ws, b => Edge all a w ∧ PathFrom all w ws b

/-- Membership of a name on a reference cycle. -/
def OnCycle (all : List IntermediateDeclaration) (a : String) : Prop :=
  ∃ ws, PathFrom all a ws a

/-- Reachability along edges (zero or more steps). -/
def Reaches (all : List IntermediateDeclaration) (a b : String) : Prop :=
  a = b ∨ ∃ ws, PathFrom all a ws b

/-- The DFS `visiting` stack read bottom-up: every entry is referenced by the
entry pushed after it. -/
def StackChain (all : List IntermediateDeclaration) : List String → Prop
  | [] => True
  | [_] => True
  | a :: b :: rest => Edge all b a ∧ StackChain all (b :: rest)

/-- Position of a name in a name list (first occurrence, length if absent). -/
def namePos : List String → String → Nat
  | [], _ => 0
  | m :: rest, n => if m = n then 0 else namePos rest n + 1

/-- The DFS invariant tying the three fields of the sort state together:
`visited` mirrors the names of `sorted`, those names are distinct and disjoint
from the stack, every emitted declaration is the one its name looks up to,
and the emitted prefix is dependency-first. -/
structure SortInv (all : List IntermediateDeclaration) (st : SortState) : Prop where
  visitedEq : st.visited = (declNames st.sorted).reverse
  nodupSorted : (declNames st.sorted).Nodup
  disj : ∀ n ∈ st.visiting, n ∉ st.visited
  src : ∀ s ∈ st.sorted, lookupDecl all s.name = some s
  depsOK : DepsBeforeList all st.sorted []

/-! Concrete inputs used by the witnesses, mirroring the repository's test
fixtures (`fixtures/index.ts`). -/

/-- The `sortingDeclarations` fixture: `User` references `UserProfile` and
`Status`, both declared after it. -/
def sortingFixtureTS : List TSDeclaration :=
  [.interfaceDecl "User"
    [⟨"profile", false, false, .tsInterfaceRef "UserProfile"⟩,
     ⟨"status", false, false,
       .tsUnion (some "Status") [.strLit "active", .strLit "inactive"]⟩],
   .interfaceDecl "UserProfile"
    [⟨"email", false, false, .tsString⟩, ⟨"age", false, false, .tsNumber⟩],
   .typeAliasDecl "Status"
     (.tsUnion (some "Status") [.strLit "active", .strLit "inactive"])]

/-- The resolved (unsorted) declarations of `sortingFixtureTS`. -/
def sortingFixtureAll : List IntermediateDeclaration :=
  [.record ⟨"User",
    [⟨"profile", .record "UserProfile", false⟩, ⟨"status", .enum "Status", false⟩]⟩,
   .record ⟨"UserProfile", [⟨"email", .string, false⟩, ⟨"age", .number, false⟩]⟩,
   .enum ⟨"Status", [⟨"active", .str "active"⟩, ⟨"inactive", .str "inactive"⟩]⟩]

/-- The ordered output the builder produces for `sortingFixtureTS`. -/
def sortingFixtureOut : List IntermediateDeclaration :=
  [.record ⟨"UserProfile", [⟨"email", .string, false⟩, ⟨"age", .number, false⟩]⟩,
   .enum ⟨"Status", [⟨"active", .str "active"⟩, ⟨"inactive", .str "inactive"⟩]⟩,
   .record ⟨"User",
    [⟨"profile", .record "UserProfile", false⟩, ⟨"status", .enum "Status", false⟩]⟩]

/-- The `circularDependency` fixture: interfaces `A` and `B` referencing each
other. -/
def circularFixtureTS : List TSDeclaration :=
  [.interfaceDecl "A" [⟨"b", false, false, .tsInterfaceRef "B"⟩],
   .interfaceDecl "B" [⟨"a", false, false, .tsInterfaceRef "A"⟩]]

/-- The resolved declarations of `circularFixtureTS`. -/
def circularFixtureAll : List IntermediateDeclaration :=
  [.record ⟨"A", [⟨"b", .record "B", false⟩]⟩,
   .record ⟨"B", [⟨"a", .record "A", false⟩]⟩]

/-- The `namingConflict` fixture: an interface and an enum both named
`Status` (a cross-kind name collision). -/
def duplicateFixtureTS : List TSDeclaration :=
  [.interfaceDecl "Status" [⟨"value", false, false, .tsString⟩],
   .enumDecl "Status" [⟨"ACTIVE", some (.str "active")⟩, ⟨"INACTIVE", some (.str "inactive")⟩]]

/-- The declarations `duplicateFixtureTS` resolves to, position by position. -/
def duplicateFixtureRS : List IntermediateDeclaration :=
  [.record ⟨"Status", [⟨"value", .string, false⟩]⟩,
   .enum ⟨"Status", [⟨"ACTIVE", .str "active"⟩, ⟨"INACTIVE", .str "inactive"⟩]⟩]

/-- A two-record input whose build output permutes it. -/
def nestedFixtureTS : List TSDeclaration :=
  [.interfaceDecl "NestedArrayRecord"
    [⟨"addresses", false, false, .tsArray (.tsInterfaceRef "Address")⟩],
   .interfaceDecl "Address" [⟨"street", false, false, .tsString⟩]]

/-- The resolved declarations of `nestedFixtureTS`. -/
def nestedFixtureAll : List IntermediateDeclaration :=
  [.record ⟨"NestedArrayRecord", [⟨"addresses", .array (.record "Address"), false⟩]⟩,
   .record ⟨"Address", [⟨"street", .string, false⟩]⟩]

/-- The ordered output the builder produces for `nestedFixtureTS`. -/
def nestedFixtureOut : List IntermediateDeclaration :=
  [.record ⟨"Address", [⟨"street", .string, false⟩]⟩,
   .record ⟨"NestedArrayRecord", [⟨"addresses", .array (.record "Address"), false⟩]⟩]

/-! Theorems. -/

/-- C5.  the Declaration Resolver is claimed to turn an object-shaped type
alias into a record declaration; the code instead throws "Type alias
UserProfile is not a union type" on the repository's own `objectTypeAlias`
fixture (`type UserProfile = \x7b email: string; age: number \x7d`), whose
kotlin-codegen test expects a record.  This theorem evaluates the code at
that failing input. -/
theorem objectAlias_rejected :
    resolveDeclaration
        (.typeAliasDecl "UserProfile" (.tsObjectShape ["email", "age"])) =
      .error (.aliasNotUnion "UserProfile") ∧
    buildIntermediateRepresentation
        [.typeAliasDecl "UserProfile" (.tsObjectShape ["email", "age"])] =
      .error (.aliasNotUnion "UserProfile") :=
  ⟨rfl, rfl⟩

/-- C6.  the pipeline is claimed to raise a heterogeneous-enum error before
producing output; in the code no such check exists: an enum mixing a string
member and a numeric member resolves, builds and is emitted (with a `String`
discriminant, the numeric value rendered as a quoted string). -/
theorem heterogeneousEnum_not_rejected :
    buildIntermediateRepresentation
        [.enumDecl "E" [⟨"A", some (.str "a")⟩, ⟨"B", some (.num 1)⟩]] =
      .ok [.enum ⟨"E", [⟨"A", .str "a"⟩, ⟨"B", .num 1⟩]⟩] ∧
    generateKotlinCodeFromIR [.enum ⟨"E", [⟨"A", .str "a"⟩, ⟨"B", .num 1⟩]⟩]
        ⟨"expo.modules.testmodule"⟩ =
      .ok ("package expo.modules.testmodule\n\nimport expo.modules.kotlin.*\n\n" ++
        "enum class E(val value: String) : Enumerable \x7b\n  A(\"a\"),\n  B(\"1\")\n\x7d") :=
  ⟨rfl, rfl⟩

/-- C7, counterexample.  the claim says the discriminant is the integer type
as soon as at least one member value is numeric; on a mixed member set
(`A = "a"`, `B = 1`) the emitter picks `String` (it tests whether *some*
member value is a string, not whether *every* one is). -/
theorem enumDiscriminant_claim_counterexample :
    (¬ ∀ m ∈ [(⟨"A", .str "a"⟩ : EnumMember), ⟨"B", .num 1⟩], m.value.isTextual) ∧
    generateKotlinEnumFromIR ⟨"E", [⟨"A", .str "a"⟩, ⟨"B", .num 1⟩]⟩ =
      "enum class E(val value: String) : Enumerable \x7b\n  A(\"a\"),\n  B(\"1\")\n\x7d" :=
  ⟨by decide, rfl⟩

/-- C7, amended.  the discriminant is `String` exactly when *some* member
value is textual, else `Int`; for a nonempty member set that is homogeneous
in kind (the only sets the claimed invariant admits) this agrees with
"every member value is textual". -/
theorem enumDiscriminant_someString (e : IntermediateEnumDeclaration) :
    (∃ cases, generateKotlinEnumFromIR e =
      "enum class " ++ e.name ++ "(val value: " ++
        (if enumHasStringInitializer e.members then "String" else "Int") ++
        ") : Enumerable \x7b\n" ++ cases ++ "\n\x7d") ∧
    (e.members ≠ [] →
      ((∀ m ∈ e.members, m.value.isTextual) ∨ (∀ m ∈ e.members, ¬ m.value.isTextual)) →
      (enumHasStringInitializer e.members = true ↔
        ∀ m ∈ e.members, m.value.isTextual)) := by
  constructor
  · exact ⟨String.intercalate ",\n" (e.members.map (kotlinEnumCase
      (if enumHasStringInitializer e.members then "String" else "Int"))), rfl⟩
  · intro hne hhom
    constructor
    · intro hsome
      rcases hhom with hall | hnone
      · exact hall
      · exfalso
        rcases List.any_eq_true.mp hsome with ⟨m, hm, hstr⟩
        have := hnone m hm
        cases hv : m.value with
        | str s => rw [hv] at this; exact this trivial
        | num n => rw [hv] at hstr; exact Bool.false_ne_true hstr
    · intro hall
      apply List.any_eq_true.mpr
      obtain ⟨m, hm⟩ := List.exists_mem_of_ne_nil e.members hne
      have := hall m hm
      refine ⟨m, hm, ?_⟩
      cases hv : m.value with
      | str s => rfl
      | num n => rw [hv] at this; exact absurd this (by simp [EnumValue.isTextual])

/-- C7, witness for the amended theorem, at the repository's `Status`
string-enum fixture. -/
theorem enumDiscriminant_someString_witness :
    ([(⟨"ACTIVE", .str "active"⟩ : EnumMember), ⟨"INACTIVE", .str "inactive"⟩] ≠ []) ∧
    (enumHasStringInitializer
        [(⟨"ACTIVE", .str "active"⟩ : EnumMember), ⟨"INACTIVE", .str "inactive"⟩] = true ↔
      ∀ m ∈ [(⟨"ACTIVE", .str "active"⟩ : EnumMember), ⟨"INACTIVE", .str "inactive"⟩],
        m.value.isTextual) :=
  ⟨by decide,
    (enumDiscriminant_someString ⟨"Status",
      [⟨"ACTIVE", .str "active"⟩, ⟨"INACTIVE", .str "inactive"⟩]⟩).2
      (by decide) (Or.inl (by decide))⟩

/-- C8.  in a numeric enum (no member value is a string) each emitted case
identifier carries an underscore prefix exactly when the member's name equals
the decimal string form of its value, while the rendered associated value is
the original literal. -/
theorem numericEnum_underscore_rule (e : IntermediateEnumDeclaration)
    (h : enumHasStringInitializer e.members = false) :
    generateKotlinEnumFromIR e =
      "enum class " ++ e.name ++ "(val value: Int) : Enumerable \x7b\n" ++
        String.intercalate ",\n" (e.members.map fun m =>
          "  " ++ (if m.name = m.value.toStr then "_" ++ m.name else m.name) ++
            "(" ++ m.value.toStr ++ ")") ++ "\n\x7d" := by
  unfold generateKotlinEnumFromIR
  rw [h]
  simp only [Bool.false_eq_true, if_false]
  rw [List.map_congr_left (fun m _ => by
    simp [kotlinEnumCase] :
    ∀ m ∈ e.members, kotlinEnumCase "Int" m =
      "  " ++ (if m.name = m.value.toStr then "_" ++ m.name else m.name) ++
        "(" ++ m.value.toStr ++ ")")]
  rw [String.append_assoc ("enum class " ++ e.name) "(val value: " "Int",
    show ("(val value: " ++ "Int" : String) = "(val value: Int" from rfl,
    String.append_assoc ("enum class " ++ e.name) "(val value: Int"
      ") : Enumerable \x7b\n",
    show ("(val value: Int" ++ ") : Enumerable \x7b\n" : String) =
      "(val value: Int) : Enumerable \x7b\n" from rfl]

/-- C8, witness: the numeric literal-union alias over `1 | 2 | 3` synthesizes
an enum whose members are named `1`, `2`, `3`, and the Kotlin emitter renders
them as `_1(1)`, `_2(2)`, `_3(3)`. -/
theorem numericEnum_underscore_rule_witness :
    buildIntermediateRepresentation
        [.typeAliasDecl "Status" (.tsUnion (some "Status") [.numLit 1, .numLit 2, .numLit 3])] =
      .ok [.enum ⟨"Status", [⟨"1", .num 1⟩, ⟨"2", .num 2⟩, ⟨"3", .num 3⟩]⟩] ∧
    generateKotlinEnumFromIR ⟨"Status", [⟨"1", .num 1⟩, ⟨"2", .num 2⟩, ⟨"3", .num 3⟩]⟩ =
      "enum class Status(val value: Int) : Enumerable \x7b\n  _1(1),\n  _2(2),\n  _3(3)\n\x7d" :=
  ⟨rfl,
    (numericEnum_underscore_rule
      ⟨"Status", [⟨"1", .num 1⟩, ⟨"2", .num 2⟩, ⟨"3", .num 3⟩]⟩ rfl).trans rfl⟩

/-- C9, counterexample.  emission is claimed total over every successfully
built IR list; but an empty-member enum referenced by a record property makes
the Kotlin emitter throw "Enum E has no members", although the list builds
successfully. -/
theorem kotlinEmitter_not_total :
    buildIntermediateRepresentation
        [.enumDecl "E" [], .interfaceDecl "R" [⟨"x", false, false, .tsEnumRef "E"⟩]] =
      .ok [.enum ⟨"E", []⟩, .record ⟨"R", [⟨"x", .enum "E", false⟩]⟩] ∧
    generateKotlinCodeFromIR [.enum ⟨"E", []⟩, .record ⟨"R", [⟨"x", .enum "E", false⟩]⟩]
        ⟨"expo.modules.testmodule"⟩ =
      .error (.enumNoMembers "E") :=
  ⟨rfl, rfl⟩

/-- Helper: a found enum declaration is a member of the list and carries the
searched name. -/
theorem findEnumDecl_some (declarations : List IntermediateDeclaration) (n : String)
    (d : IntermediateDeclaration) (h : findEnumDecl declarations n = some d) :
    d ∈ declarations ∧ ∃ e, d = .enum e ∧ e.name = n := by
  have hmem : d ∈ declarations := List.mem_of_find?_eq_some h
  have hpred := List.find?_some h
  refine ⟨hmem, ?_⟩
  cases d with
  | record r => simp at hpred
  | enum e =>
    refine ⟨e, rfl, ?_⟩
    simpa using hpred

/-- Helper: under `EnumRefsResolved`, the Kotlin type mapping succeeds and its
default value is the one of the claim's table. -/
theorem mapKotlin_ok_of_enumRefsResolved (declarations : List IntermediateDeclaration) :
    ∀ t : IntermediateType, EnumRefsResolved declarations t →
      ∃ kt, mapIntermediateTypeToKotlin t declarations = .ok kt ∧
        claimKotlinDefault declarations t = some kt.defaultValue := by
  intro t
  induction t with
  | string => exact fun _ => ⟨⟨"String", "\"\""⟩, rfl, rfl⟩
  | number => exact fun _ => ⟨⟨"Double", "0.0"⟩, rfl, rfl⟩
  | boolean => exact fun _ => ⟨⟨"Boolean", "false"⟩, rfl, rfl⟩
  | any => exact fun _ => ⟨⟨"Any", "mapOf()"⟩, rfl, rfl⟩
  | byteArray => exact fun _ => ⟨⟨"ByteArray", "ByteArray(0)"⟩, rfl, rfl⟩
  | array elementType ih =>
    intro h
    obtain ⟨kt, hok, _⟩ := ih h
    exact ⟨⟨"List<" ++ kt.type ++ ">", "listOf()"⟩,
      by simp [mapIntermediateTypeToKotlin, hok], rfl⟩
  | map keyType valueType ihk ihv =>
    intro h
    obtain ⟨kkt, hkok, _⟩ := ihk h.1
    obtain ⟨vkt, hvok, _⟩ := ihv h.2
    exact ⟨⟨"Map<" ++ kkt.type ++ ", " ++ vkt.type ++ ">", "mapOf()"⟩,
      by simp [mapIntermediateTypeToKotlin, hkok, hvok], rfl⟩
  | enum n =>
    intro h
    obtain ⟨e, hfind, hne⟩ := h
    cases hm : e.members with
    | nil => exact absurd hm hne
    | cons m rest =>
      refine ⟨⟨n, e.name ++ "." ++
        (if (match m.value with
             | .num v => m.name = toString v
             | .str _ => false : Bool)
         then "_" ++ m.name else m.name)⟩, ?_, ?_⟩
      · simp [mapIntermediateTypeToKotlin, hfind, getEnumDefaultValue, hm]
      · simp [claimKotlinDefault, hfind, hm]
  | record n => exact fun _ => ⟨⟨n, n ++ "()"⟩, rfl, rfl⟩

/-- C4.  for every record property rendered by the Kotlin emitter: when
`isOptional` the field type is the base type suffixed with `?` and the default
is `null`, whatever the underlying IR type; when not optional, the default is
the type-specific one of the claim's table (every enum reference is assumed
to resolve to a membered enum declaration, as the claim's table requires for
its enum row). -/
theorem kotlinRecord_default_policy (declarations : List IntermediateDeclaration)
    (p : RecordProperty) (h : EnumRefsResolved declarations p.type) :
    ∃ kt, mapIntermediateTypeToKotlin p.type declarations = .ok kt ∧
      kotlinPropertyField declarations p =
        .ok ("  @Field\n  val " ++ p.name ++ ": " ++
          (if p.isOptional then kt.type ++ "?" else kt.type) ++ " = " ++
          (if p.isOptional then "null" else kt.defaultValue)) ∧
      (p.isOptional = false →
        claimKotlinDefault declarations p.type = some kt.defaultValue) := by
  obtain ⟨kt, hok, hdv⟩ := mapKotlin_ok_of_enumRefsResolved declarations p.type h
  refine ⟨kt, hok, ?_, fun _ => hdv⟩
  simp [kotlinPropertyField, hok]

/-- C4, witness: a non-optional enum-typed property renders with the enum's
first declared member as default, and an optional one with a nullable type
and `null`. -/
theorem kotlinRecord_default_policy_witness :
    EnumRefsResolved [.enum ⟨"Status", [⟨"ACTIVE", .str "active"⟩]⟩]
      (IntermediateType.enum "Status") ∧
    kotlinPropertyField [.enum ⟨"Status", [⟨"ACTIVE", .str "active"⟩]⟩]
        ⟨"status", .enum "Status", false⟩ =
      .ok "  @Field\n  val status: Status = Status.ACTIVE" ∧
    kotlinPropertyField [.enum ⟨"Status", [⟨"ACTIVE", .str "active"⟩]⟩]
        ⟨"status", .enum "Status", true⟩ =
      .ok "  @Field\n  val status: Status? = null" := by
  have h : EnumRefsResolved [.enum ⟨"Status", [⟨"ACTIVE", .str "active"⟩]⟩]
      (IntermediateType.enum "Status") :=
    ⟨⟨"Status", [⟨"ACTIVE", .str "active"⟩]⟩, rfl, by decide⟩
  obtain ⟨kt, h1, h2, h3⟩ := kotlinRecord_default_policy
    [.enum ⟨"Status", [⟨"ACTIVE", .str "active"⟩]⟩] ⟨"status", .enum "Status", false⟩ h
  obtain ⟨kt2, h4, h5, h6⟩ := kotlinRecord_default_policy
    [.enum ⟨"Status", [⟨"ACTIVE", .str "active"⟩]⟩] ⟨"status", .enum "Status", true⟩ h
  have hkt : kt = ⟨"Status", "Status.ACTIVE"⟩ := by
    have := h1.symm.trans (rfl :
      mapIntermediateTypeToKotlin (.enum "Status")
        [.enum ⟨"Status", [⟨"ACTIVE", .str "active"⟩]⟩] = .ok ⟨"Status", "Status.ACTIVE"⟩)
    exact (Except.ok.injEq _ _).mp this
  have hkt2 : kt2 = ⟨"Status", "Status.ACTIVE"⟩ := by
    have := h4.symm.trans (rfl :
      mapIntermediateTypeToKotlin (.enum "Status")
        [.enum ⟨"Status", [⟨"ACTIVE", .str "active"⟩]⟩] = .ok ⟨"Status", "Status.ACTIVE"⟩)
    exact (Except.ok.injEq _ _).mp this
  subst hkt hkt2
  exact ⟨h, h2.trans (by rfl), h5.trans (by rfl)⟩

/-- Helper: a list `mapM` over `Except` succeeds when every element does. -/
theorem mapM_ok_of_forall {α β : Type} (f : α → Except CodegenError β) (l : List α)
    (h : ∀ a ∈ l, ∃ b, f a = .ok b) : ∃ bs, l.mapM f = .ok bs := by
  induction l with
  | nil => exact ⟨[], rfl⟩
  | cons a rest ih =>
    obtain ⟨b, hb⟩ := h a (List.mem_cons_self a rest)
    obtain ⟨bs, hbs⟩ := ih fun x hx => h x (List.mem_cons_of_mem a hx)
    exact ⟨b :: bs, by rw [List.mapM_cons, hb, hbs]; rfl⟩

/-- Helper: when every enum declaration of the list has members, the Kotlin
type mapping is total. -/
theorem mapKotlin_ok_of_nonempty (declarations : List IntermediateDeclaration)
    (h : ∀ d ∈ declarations, enumMembersNonempty d) :
    ∀ t : IntermediateType, ∃ kt, mapIntermediateTypeToKotlin t declarations = .ok kt := by
  intro t
  induction t with
  | string => exact ⟨_, rfl⟩
  | number => exact ⟨_, rfl⟩
  | boolean => exact ⟨_, rfl⟩
  | any => exact ⟨_, rfl⟩
  | byteArray => exact ⟨_, rfl⟩
  | array elementType ih =>
    obtain ⟨kt, hok⟩ := ih
    refine ⟨⟨"List<" ++ kt.type ++ ">", "listOf()"⟩, ?_⟩
    simp [mapIntermediateTypeToKotlin, hok]
  | map keyType valueType ihk ihv =>
    obtain ⟨kkt, hkok⟩ := ihk
    obtain ⟨vkt, hvok⟩ := ihv
    refine ⟨⟨"Map<" ++ kkt.type ++ ", " ++ vkt.type ++ ">", "mapOf()"⟩, ?_⟩
    simp [mapIntermediateTypeToKotlin, hkok, hvok]
  | enum n =>
    cases hfind : findEnumDecl declarations n with
    | none =>
      refine ⟨⟨n, n ++ "()"⟩, ?_⟩
      simp [mapIntermediateTypeToKotlin, hfind]
    | some d =>
      obtain ⟨hmem, e, rfl, hname⟩ := findEnumDecl_some declarations n d hfind
      have hne : e.members ≠ [] := h _ hmem
      cases hm : e.members with
      | nil => exact absurd hm hne
      | cons m rest =>
        refine ⟨⟨n, e.name ++ "." ++
          (if (match m.value with
               | .num v => m.name = toString v
               | .str _ => false : Bool)
           then "_" ++ m.name else m.name)⟩, ?_⟩
        simp [mapIntermediateTypeToKotlin, hfind, getEnumDefaultValue, hm]
  | record n => exact ⟨_, rfl⟩

/-- Helper: record rendering is total when the type mapping is. -/
theorem generateKotlinRecordFromIR_ok (declarations : List IntermediateDeclaration)
    (h : ∀ d ∈ declarations, enumMembersNonempty d)
    (r : IntermediateRecordDeclaration) :
    ∃ s, generateKotlinRecordFromIR r declarations = .ok s := by
  by_cases he : r.properties.isEmpty
  · refine ⟨"class " ++ r.name ++ " : Record \x7b\n\x7d", ?_⟩
    unfold generateKotlinRecordFromIR
    rw [if_pos he]
  · have hfields : ∀ p ∈ r.properties, ∃ s, kotlinPropertyField declarations p = .ok s := by
      intro p _
      obtain ⟨kt, hok⟩ := mapKotlin_ok_of_nonempty declarations h p.type
      refine ⟨"  @Field\n  val " ++ p.name ++ ": " ++
        (if p.isOptional then kt.type ++ "?" else kt.type) ++ " = " ++
        (if p.isOptional then "null" else kt.defaultValue), ?_⟩
      simp [kotlinPropertyField, hok]
    obtain ⟨fields, hf⟩ := mapM_ok_of_forall (kotlinPropertyField declarations)
      r.properties hfields
    refine ⟨"class " ++ r.name ++ " : Record \x7b\n" ++
      String.intercalate "\n\n" fields ++ "\n\x7d", ?_⟩
    unfold generateKotlinRecordFromIR
    rw [if_neg he, hf]

/-- C9, amended.  emission is total over every IR declaration list in which
each enum declaration has a nonempty member list (named references that
resolve to no declaration are tolerated); the counterexample shows the
unrestricted claim fails for an empty-member enum referenced by a record
property. -/
theorem kotlinEmitter_total_of_nonempty_enums (declarations : List IntermediateDeclaration)
    (config : KotlinConfig) (h : ∀ d ∈ declarations, enumMembersNonempty d) :
    ∃ text, generateKotlinCodeFromIR declarations config = .ok text := by
  obtain ⟨recordTexts, hrt⟩ := mapM_ok_of_forall
    (fun r => generateKotlinRecordFromIR r declarations)
    (declarations.filterMap fun d =>
      match d with
      | .record r => some r
      | .enum _ => none)
    (fun r _ => generateKotlinRecordFromIR_ok declarations h r)
  unfold generateKotlinCodeFromIR
  rw [hrt]
  dsimp only
  by_cases hc : (String.intercalate "\n\n"
      ([String.intercalate "\n\n"
          ((declarations.filterMap fun d =>
            match d with
            | .enum e => some e
            | .record _ => none).map generateKotlinEnumFromIR),
        String.intercalate "\n\n" recordTexts].filter fun s => ¬ s = "")) = ""
  · exact ⟨"", by rw [if_pos hc]⟩
  · exact ⟨"package " ++ config.packageName ++ "\n\nimport expo.modules.kotlin.*\n\n" ++
      String.intercalate "\n\n"
        ([String.intercalate "\n\n"
            ((declarations.filterMap fun d =>
              match d with
              | .enum e => some e
              | .record _ => none).map generateKotlinEnumFromIR),
          String.intercalate "\n\n" recordTexts].filter fun s => ¬ s = ""),
      by rw [if_neg hc]⟩

/-- C9, amended, witness at a small record-plus-enum list. -/
theorem kotlinEmitter_total_of_nonempty_enums_witness :
    (∀ d ∈ [IntermediateDeclaration.enum ⟨"Status", [⟨"ACTIVE", .str "active"⟩]⟩,
        .record ⟨"User", [⟨"status", .enum "Status", false⟩]⟩], enumMembersNonempty d) ∧
    ∃ text, generateKotlinCodeFromIR
        [.enum ⟨"Status", [⟨"ACTIVE", .str "active"⟩]⟩,
         .record ⟨"User", [⟨"status", .enum "Status", false⟩]⟩]
        ⟨"expo.modules.testmodule"⟩ = .ok text :=
  ⟨by decide,
    kotlinEmitter_total_of_nonempty_enums
      [.enum ⟨"Status", [⟨"ACTIVE", .str "active"⟩]⟩,
       .record ⟨"User", [⟨"status", .enum "Status", false⟩]⟩]
      ⟨"expo.modules.testmodule"⟩ (by decide)⟩

@[simp]
theorem declNames_nil : declNames [] = [] := rfl

@[simp]
theorem declNames_cons (d : IntermediateDeclaration) (l : List IntermediateDeclaration) :
    declNames (d :: l) = d.name :: declNames l := rfl

@[simp]
theorem declNames_append (l1 l2 : List IntermediateDeclaration) :
    declNames (l1 ++ l2) = declNames l1 ++ declNames l2 :=
  List.map_append _ l1 l2

/-- Helper: a successful `declMap` lookup returns a member of the list bearing
the looked-up name. -/
theorem lookupDecl_some_mem {all : List IntermediateDeclaration} {n : String}
    {d : IntermediateDeclaration} (h : lookupDecl all n = some d) :
    d ∈ all ∧ d.name = n := by
  induction all with
  | nil => simp [lookupDecl] at h
  | cons a rest ih =>
    simp only [lookupDecl] at h
    cases hr : lookupDecl rest n with
    | some r =>
      rw [hr] at h
      injection h with h
      subst h
      obtain ⟨hm, hn⟩ := ih hr
      exact ⟨List.mem_cons_of_mem a hm, hn⟩
    | none =>
      rw [hr] at h
      by_cases ha : a.name = n
      · rw [if_pos ha] at h
        injection h with h
        subst h
        exact ⟨List.mem_cons_self a rest, ha⟩
      · rw [if_neg ha] at h
        cases h

/-- Helper: a name of the list looks up to something. -/
theorem lookupDecl_isSome_of_mem {all : List IntermediateDeclaration} {n : String}
    (h : n ∈ declNames all) : ∃ d, lookupDecl all n = some d := by
  induction all with
  | nil => simp at h
  | cons a rest ih =>
    simp only [declNames_cons, List.mem_cons] at h
    simp only [lookupDecl]
    cases hr : lookupDecl rest n with
    | some r => exact ⟨r, rfl⟩
    | none =>
      rcases h with h | h
      · exact ⟨a, by rw [if_pos h.symm]⟩
      · obtain ⟨d, hd⟩ := ih h
        cases hr.symm.trans hd

/-- Helper: with distinct names, every member of the list looks up to itself. -/
theorem lookupDecl_mem_nodup {all : List IntermediateDeclaration}
    (hN : (declNames all).Nodup) {d : IntermediateDeclaration} (h : d ∈ all) :
    lookupDecl all d.name = some d := by
  induction all with
  | nil => cases h
  | cons a rest ih =>
    simp only [declNames_cons, List.nodup_cons] at hN
    obtain ⟨hna, hrest⟩ := hN
    simp only [lookupDecl]
    rcases List.mem_cons.mp h with rfl | hmem
    · cases hr : lookupDecl rest d.name with
      | some r =>
        obtain ⟨hrm, hrn⟩ := lookupDecl_some_mem hr
        exact absurd (hrn ▸ List.mem_map_of_mem IntermediateDeclaration.name hrm) hna
      | none => rw [if_pos rfl]
    · rw [ih hrest hmem]

/-- Helper: the source of an edge is a name of the list. -/
theorem edge_src_mem {all : List IntermediateDeclaration} {a b : String}
    (h : Edge all a b) : a ∈ declNames all := by
  obtain ⟨da, hda, _⟩ := h
  obtain ⟨hm, hn⟩ := lookupDecl_some_mem hda
  exact hn ▸ List.mem_map_of_mem IntermediateDeclaration.name hm

/-- Helper: the first name of a nonempty path is a name of the list. -/
theorem pathFrom_src_mem {all : List IntermediateDeclaration} {a b : String}
    {ws : List String} (h : PathFrom all a ws b) : a ∈ declNames all := by
  cases ws with
  | nil => exact edge_src_mem h
  | cons w ws => exact edge_src_mem h.1

/-- Helper: a path extends by one edge at its end. -/
theorem pathFrom_snoc {all : List IntermediateDeclaration} {a b c : String} :
    ∀ {ws : List String}, PathFrom all a ws b → Edge all b c →
      PathFrom all a (ws ++ [b]) c := by
  intro ws
  induction ws generalizing a with
  | nil => exact fun h1 h2 => ⟨h1, h2⟩
  | cons w ws ih => exact fun h1 h2 => ⟨h1.1, ih h1.2 h2⟩

/-- Helper: reachability followed by an edge yields a nonempty path. -/
theorem reaches_step {all : List IntermediateDeclaration} {n b c : String}
    (h1 : Reaches all n b) (h2 : Edge all b c) : ∃ ws, PathFrom all n ws c := by
  rcases h1 with rfl | ⟨ws, hp⟩
  · exact ⟨[], h2⟩
  · exact ⟨ws ++ [b], pathFrom_snoc hp h2⟩

/-- Helper: every entry of a chained stack reaches the stack's head. -/
theorem stackChain_reaches {all : List IntermediateDeclaration} :
    ∀ {l : List String} {n h : String} {rest : List String},
      StackChain all l → n ∈ l → l = h :: rest → Reaches all n h := by
  intro l
  induction l with
  | nil => intro n h rest _ hn; cases hn
  | cons a as ih =>
    intro n h rest hchain hn heq
    injection heq with h1 h2
    subst h1
    subst h2
    rcases List.mem_cons.mp hn with rfl | hn'
    · exact Or.inl rfl
    · cases as with
      | nil => cases hn'
      | cons b bs =>
        obtain ⟨hedge, hchain'⟩ := hchain
        have hreach : Reaches all n b := ih hchain' hn' rfl
        exact Or.inr (reaches_step hreach hedge)

/-- Helper: appending one declaration whose in-list dependencies are already
emitted preserves the dependency-first ordering. -/
theorem depsBeforeList_append (all : List IntermediateDeclaration)
    (l : List IntermediateDeclaration) (d : IntermediateDeclaration) :
    ∀ seen, DepsBeforeList all l seen →
      (∀ x ∈ collectDependencies d, x ∈ declNames all → x ∈ seen ++ declNames l) →
      DepsBeforeList all (l ++ [d]) seen := by
  induction l with
  | nil =>
    intro seen _ hd
    exact ⟨fun x hx hall => by simpa using hd x hx hall, trivial⟩
  | cons a rest ih =>
    intro seen h hd
    refine ⟨h.1, ih (seen ++ [a.name]) h.2 fun x hx hall => ?_⟩
    have := hd x hx hall
    simpa [List.append_assoc] using this

/-- Helper: the dependency-first ordering, read at an arbitrary split point. -/
theorem depsBeforeList_split (all : List IntermediateDeclaration) :
    ∀ (l1 : List IntermediateDeclaration) (d : IntermediateDeclaration)
      (l2 : List IntermediateDeclaration) (seen : List String),
      DepsBeforeList all (l1 ++ d :: l2) seen →
      ∀ x ∈ collectDependencies d, x ∈ declNames all → x ∈ seen ++ declNames l1 := by
  intro l1
  induction l1 with
  | nil => intro d l2 seen h x hx hall; simpa using h.1 x hx hall
  | cons a l1 ih =>
    intro d l2 seen h x hx hall
    have := ih d l2 (seen ++ [a.name]) h.2 x hx hall
    simpa [List.append_assoc] using this

/-- Helper: position of a name occurring in a prefix it belongs to. -/
theorem namePos_append_left {n : String} :
    ∀ {l1 : List String} (l2 : List String), n ∈ l1 →
      namePos (l1 ++ l2) n = namePos l1 n := by
  intro l1
  induction l1 with
  | nil => intro l2 h; cases h
  | cons m rest ih =>
    intro l2 h
    by_cases hm : m = n
    · simp [namePos, hm]
    · rcases List.mem_cons.mp h with rfl | h'
      · exact absurd rfl hm
      · simp [namePos, hm, ih l2 h']

/-- Helper: a present name's position is below the list's length. -/
theorem namePos_lt_length {n : String} :
    ∀ {l : List String}, n ∈ l → namePos l n < l.length := by
  intro l
  induction l with
  | nil => intro h; cases h
  | cons m rest ih =>
    intro h
    by_cases hm : m = n
    · simp [namePos, hm]
    · rcases List.mem_cons.mp h with rfl | h'
      · exact absurd rfl hm
      · simpa [namePos, hm, Nat.succ_lt_succ_iff] using ih h'

/-- Helper: position of a name just after a prefix not containing it. -/
theorem namePos_append_self {n : String} :
    ∀ {l1 l2 : List String}, n ∉ l1 → namePos (l1 ++ n :: l2) n = l1.length := by
  intro l1
  induction l1 with
  | nil => intro l2 _; simp [namePos]
  | cons m rest ih =>
    intro l2 h
    have hm : m ≠ n := fun hmn => h (hmn ▸ List.mem_cons_self m rest)
    have h' : n ∉ rest := fun hn => h (List.mem_cons_of_mem m hn)
    simp [namePos, hm, ih h']

/-- Helper: on success, `visitDeps` leaves the `visiting` stack as it found
it, provided the step function does. -/
theorem visitDeps_ok_visiting (all : List IntermediateDeclaration)
    (vstep : IntermediateDeclaration → SortState → Except CodegenError SortState)
    (hstep : ∀ d s s1, vstep d s = .ok s1 → s1.visiting = s.visiting) :
    ∀ deps st st', visitDeps all vstep deps st = .ok st' → st'.visiting = st.visiting := by
  intro deps
  induction deps with
  | nil =>
    intro st st' h
    simp only [visitDeps] at h
    injection h with h
    rw [h]
  | cons x rest ih =>
    intro st st' h
    simp only [visitDeps] at h
    cases hl : lookupDecl all x with
    | none =>
      rw [hl] at h
      dsimp only at h
      exact ih st st' h
    | some dd =>
      rw [hl] at h
      dsimp only at h
      cases hv : vstep dd st with
      | error e => rw [hv] at h; cases h
      | ok st1 =>
        rw [hv] at h
        exact (ih st1 st' h).trans (hstep dd st st1 hv)

/-- Helper: on success, `visit` leaves the `visiting` stack as it found it. -/
theorem visit_ok_visiting (all : List IntermediateDeclaration) :
    ∀ fuel decl st st', visit all fuel decl st = .ok st' → st'.visiting = st.visiting := by
  intro fuel
  induction fuel with
  | zero => intro decl st st' h; cases h
  | succ fuel ih =>
    intro decl st st' h
    simp only [visit] at h
    by_cases h1 : decl.name ∈ st.visiting
    · rw [if_pos h1] at h; cases h
    · rw [if_neg h1] at h
      by_cases h2 : decl.name ∈ st.visited
      · rw [if_pos h2] at h
        injection h with h
        rw [h]
      · rw [if_neg h2] at h
        cases hd : visitDeps all (fun d s => visit all fuel d s) (collectDependencies decl)
            { st with visiting := decl.name :: st.visiting } with
        | error e => rw [hd] at h; cases h
        | ok st2 =>
          rw [hd] at h
          injection h with h
          have hv2 : st2.visiting = decl.name :: st.visiting :=
            visitDeps_ok_visiting all _ (fun d s s1 hs => ih d s s1 hs) _ _ _ hd
          rw [← h]
          simp [hv2, List.erase_cons_head]

/-- Helper: the DFS invariant is preserved by a successful `visit`; moreover
the stack is restored, the output only grows, and the visited declaration's
name ends up in `visited`. -/
theorem visit_ok_post (all : List IntermediateDeclaration) :
    ∀ fuel decl st st', SortInv all st → lookupDecl all decl.name = some decl →
      visit all fuel decl st = .ok st' →
      SortInv all st' ∧ st'.visiting = st.visiting ∧
      (∃ ext, st'.sorted = st.sorted ++ ext) ∧
      decl.name ∈ st'.visited ∧ ∀ v ∈ st.visited, v ∈ st'.visited := by
  intro fuel
  induction fuel with
  | zero => intro decl st st' _ _ h; cases h
  | succ fuel ih =>
    have ihList : ∀ deps st st', SortInv all st →
        visitDeps all (fun d s => visit all fuel d s) deps st = .ok st' →
        SortInv all st' ∧ st'.visiting = st.visiting ∧
        (∃ ext, st'.sorted = st.sorted ++ ext) ∧
        (∀ v ∈ st.visited, v ∈ st'.visited) ∧
        ∀ x ∈ deps, (∃ dx, lookupDecl all x = some dx) → x ∈ st'.visited := by
      intro deps
      induction deps with
      | nil =>
        intro st st' hInv h
        simp only [visitDeps] at h
        injection h with h
        subst h
        exact ⟨hInv, rfl, ⟨[], by simp⟩, fun v hv => hv, by simp⟩
      | cons x rest ihr =>
        intro st st' hInv h
        simp only [visitDeps] at h
        cases hl : lookupDecl all x with
        | none =>
          rw [hl] at h
          dsimp only at h
          obtain ⟨hInv', hvis, hext, hmono, hdeps⟩ := ihr st st' hInv h
          refine ⟨hInv', hvis, hext, hmono, ?_⟩
          intro y hy hex
          rcases List.mem_cons.mp hy with rfl | hy'
          · obtain ⟨dx, hdx⟩ := hex
            cases hl.symm.trans hdx
          · exact hdeps y hy' hex
        | some dd =>
          rw [hl] at h
          dsimp only at h
          cases hv : visit all fuel dd st with
          | error e => rw [hv] at h; cases h
          | ok st1 =>
            rw [hv] at h
            obtain ⟨hdm, hdn⟩ := lookupDecl_some_mem hl
            obtain ⟨hInv1, hvis1, ⟨e1, he1⟩, hname1, hmono1⟩ :=
              ih dd st st1 hInv (hdn ▸ hl) hv
            obtain ⟨hInv', hvis', ⟨e2, he2⟩, hmono', hdeps'⟩ := ihr st1 st' hInv1 h
            refine ⟨hInv', hvis'.trans hvis1,
              ⟨e1 ++ e2, by rw [he2, he1, List.append_assoc]⟩,
              fun v hv0 => hmono' v (hmono1 v hv0), ?_⟩
            intro y hy hex
            rcases List.mem_cons.mp hy with rfl | hy'
            · exact hmono' _ (hdn ▸ hname1)
            · exact hdeps' y hy' hex
    intro decl st st' hInv hlk h
    simp only [visit] at h
    by_cases h1 : decl.name ∈ st.visiting
    · rw [if_pos h1] at h; cases h
    · rw [if_neg h1] at h
      by_cases h2 : decl.name ∈ st.visited
      · rw [if_pos h2] at h
        injection h with h
        subst h
        exact ⟨hInv, rfl, ⟨[], by simp⟩, h2, fun v hv => hv⟩
      · rw [if_neg h2] at h
        have hInv1 : SortInv all { st with visiting := decl.name :: st.visiting } :=
          { visitedEq := hInv.visitedEq
            nodupSorted := hInv.nodupSorted
            disj := by
              intro n hn
              rcases List.mem_cons.mp hn with rfl | hn'
              · exact h2
              · exact hInv.disj n hn'
            src := hInv.src
            depsOK := hInv.depsOK }
        cases hd : visitDeps all (fun d s => visit all fuel d s) (collectDependencies decl)
            { st with visiting := decl.name :: st.visiting } with
        | error e => rw [hd] at h; cases h
        | ok st2 =>
          rw [hd] at h
          injection h with h
          subst h
          obtain ⟨hInv2, hvis2, ⟨ext, hext⟩, hmono2, hdeps2⟩ := ihList _ _ st2 hInv1 hd
          have hvis2' : st2.visiting = decl.name :: st.visiting := hvis2
          have hext' : st2.sorted = st.sorted ++ ext := hext
          have hnotS : decl.name ∉ declNames st2.sorted := by
            have hmemv : decl.name ∈ st2.visiting := by
              rw [hvis2']; exact List.mem_cons_self _ _
            have := hInv2.disj decl.name hmemv
            rw [hInv2.visitedEq] at this
            simpa using this
          refine ⟨?_, ?_, ?_, ?_, ?_⟩
          · refine
              { visitedEq := ?_
                nodupSorted := ?_
                disj := ?_
                src := ?_
                depsOK := ?_ }
            · show decl.name :: st2.visited =
                (declNames (st2.sorted ++ [decl])).reverse
              simp [hInv2.visitedEq]
            · show (declNames (st2.sorted ++ [decl])).Nodup
              rw [declNames_append]
              exact (List.perm_append_singleton _ _).nodup_iff.mpr
                (List.nodup_cons.mpr ⟨hnotS, hInv2.nodupSorted⟩)
            · show ∀ n ∈ st2.visiting.erase decl.name, n ∉ decl.name :: st2.visited
              intro n hn
              rw [hvis2', List.erase_cons_head] at hn
              intro hmem
              rcases List.mem_cons.mp hmem with rfl | hmem'
              · exact h1 hn
              · exact hInv2.disj n (by rw [hvis2']; exact List.mem_cons_of_mem _ hn) hmem'
            · show ∀ s ∈ st2.sorted ++ [decl], lookupDecl all s.name = some s
              intro s hs
              rcases List.mem_append.mp hs with hs' | hs'
              · exact hInv2.src s hs'
              · rw [List.mem_singleton.mp hs']
                exact hlk
            · show DepsBeforeList all (st2.sorted ++ [decl]) []
              refine depsBeforeList_append all st2.sorted decl [] hInv2.depsOK ?_
              intro x hx hall
              obtain ⟨dx, hdx⟩ := lookupDecl_isSome_of_mem hall
              have hxv := hdeps2 x hx ⟨dx, hdx⟩
              rw [hInv2.visitedEq] at hxv
              simpa using hxv
          · show st2.visiting.erase decl.name = st.visiting
            rw [hvis2', List.erase_cons_head]
          · exact ⟨ext ++ [decl], by
              show st2.sorted ++ [decl] = st.sorted ++ (ext ++ [decl])
              rw [hext', List.append_assoc]⟩
          · exact List.mem_cons_self _ _
          · intro v hv0
            exact List.mem_cons_of_mem _ (hmono2 v hv0)

/-- Helper: the invariant and visit postconditions, lifted to the top-level
loop over all declarations. -/
theorem visitAllDecls_ok_post (all : List IntermediateDeclaration)
    (hN : (declNames all).Nodup) (fuel : Nat) :
    ∀ ds st st', SortInv all st → (∀ d ∈ ds, d ∈ all) →
      visitAllDecls all fuel ds st = .ok st' →
      SortInv all st' ∧ (∀ d ∈ ds, d.name ∈ st'.visited) ∧
      ∀ v ∈ st.visited, v ∈ st'.visited := by
  intro ds
  induction ds with
  | nil =>
    intro st st' hInv _ h
    simp only [visitAllDecls] at h
    injection h with h
    subst h
    exact ⟨hInv, by simp, fun v hv => hv⟩
  | cons d rest ih =>
    intro st st' hInv hsub h
    simp only [visitAllDecls] at h
    cases hv : visit all fuel d st with
    | error e => rw [hv] at h; cases h
    | ok st1 =>
      rw [hv] at h
      have hd : d ∈ all := hsub d (List.mem_cons_self d rest)
      obtain ⟨hInv1, _, _, hname, hmono⟩ :=
        visit_ok_post all fuel d st st1 hInv (lookupDecl_mem_nodup hN hd) hv
      obtain ⟨hInv', hrest, hmono'⟩ := ih st1 st' hInv1
        (fun x hx => hsub x (List.mem_cons_of_mem d hx)) h
      refine ⟨hInv', ?_, fun v hv0 => hmono' v (hmono v hv0)⟩
      intro x hx
      rcases List.mem_cons.mp hx with rfl | hx'
      · exact hmono' _ hname
      · exact hrest x hx'

/-- Helper: a successful sort is dependency-first, a permutation of its
input, and has pairwise-distinct names. -/
theorem sortDecls_ok (all out : List IntermediateDeclaration)
    (hN : (declNames all).Nodup)
    (h : sortDeclarationsByDependencies all = .ok out) :
    DepsBeforeList all out [] ∧ List.Perm out all ∧ (declNames out).Nodup := by
  unfold sortDeclarationsByDependencies at h
  cases hv : visitAllDecls all (all.length + 1) all ⟨[], [], []⟩ with
  | error e => rw [hv] at h; cases h
  | ok st =>
    rw [hv] at h
    injection h with h
    subst h
    have hInv0 : SortInv all ⟨[], [], []⟩ :=
      { visitedEq := rfl
        nodupSorted := List.nodup_nil
        disj := by intro n hn; cases hn
        src := by intro s hs; cases hs
        depsOK := trivial }
    obtain ⟨hInv, hallv, _⟩ :=
      visitAllDecls_ok_post all hN (all.length + 1) all ⟨[], [], []⟩ st hInv0
        (fun d hd => hd) hv
    refine ⟨hInv.depsOK, ?_, hInv.nodupSorted⟩
    have hsub1 : st.sorted ⊆ all := fun s hs => (lookupDecl_some_mem (hInv.src s hs)).1
    have hsub2 : all ⊆ st.sorted := by
      intro d hd
      have h1 : d.name ∈ st.visited := hallv d hd
      rw [hInv.visitedEq] at h1
      have h2 : d.name ∈ declNames st.sorted := by simpa using h1
      obtain ⟨s, hs, hsn⟩ := List.mem_map.mp h2
      have h3 := hInv.src s hs
      rw [hsn] at h3
      have h4 := lookupDecl_mem_nodup hN hd
      rw [h3] at h4
      injection h4 with h4
      rw [← h4]
      exact hs
    exact List.Subperm.antisymm
      (List.subperm_of_subset (List.Nodup.of_map _ hInv.nodupSorted) hsub1)
      (List.subperm_of_subset (List.Nodup.of_map _ hN) hsub2)

/-- Helper: a successful duplicate-rejecting resolution pass yields
pairwise-distinct names. -/
theorem resolveDeclarationList_nodup :
    ∀ (ds : List TSDeclaration) (seen : List String)
      (acc all : List IntermediateDeclaration),
      seen = (declNames acc).reverse → seen.Nodup →
      resolveDeclarationList ds seen acc = .ok all → (declNames all).Nodup := by
  intro ds
  induction ds with
  | nil =>
    intro seen acc all he hn h
    simp only [resolveDeclarationList] at h
    injection h with h
    subst h
    rw [he] at hn
    exact List.nodup_reverse.mp hn
  | cons d rest ih =>
    intro seen acc all he hn h
    simp only [resolveDeclarationList] at h
    cases hr : resolveDeclaration d with
    | error e => rw [hr] at h; cases h
    | ok r =>
      rw [hr] at h
      dsimp only at h
      by_cases hm : r.name ∈ seen
      · rw [if_pos hm] at h; cases h
      · rw [if_neg hm] at h
        exact ih (r.name :: seen) (acc ++ [r]) all
          (by rw [he]; simp) (List.nodup_cons.mpr ⟨hm, hn⟩) h

/-- Helper: once resolution succeeded, the builder's result is the sort's. -/
theorem build_eq_sort {ds : List TSDeclaration} {all : List IntermediateDeclaration}
    (h : resolveDeclarationList ds [] [] = .ok all) :
    buildIntermediateRepresentation ds = sortDeclarationsByDependencies all := by
  unfold buildIntermediateRepresentation
  rw [h]

/-- C1.  when the build succeeds, the returned list is dependency-first:
walking it left to right, every name a declaration references (through
array/map wrappers) that names a declaration of the resolved input set has
already been emitted earlier in the list. -/
theorem buildIR_dependency_first (ds : List TSDeclaration)
    (all out : List IntermediateDeclaration)
    (h1 : resolveDeclarationList ds [] [] = .ok all)
    (h2 : buildIntermediateRepresentation ds = .ok out) :
    DepsBeforeList all out [] := by
  have hs : sortDeclarationsByDependencies all = .ok out :=
    (build_eq_sort h1).symm.trans h2
  exact (sortDecls_ok all out
    (resolveDeclarationList_nodup ds [] [] all rfl List.nodup_nil h1) hs).1

/-- C1, witness: the repository's reordering fixture (`User` referencing
`UserProfile` and `Status`, given first) builds to the order
`[UserProfile, Status, User]`, which is dependency-first. -/
theorem buildIR_dependency_first_witness :
    resolveDeclarationList sortingFixtureTS [] [] = .ok sortingFixtureAll ∧
    buildIntermediateRepresentation sortingFixtureTS = .ok sortingFixtureOut ∧
    DepsBeforeList sortingFixtureAll sortingFixtureOut [] :=
  ⟨rfl, rfl, buildIR_dependency_first sortingFixtureTS sortingFixtureAll
    sortingFixtureOut rfl rfl⟩

/-- C10.  when the build succeeds, the returned list is a permutation of the
resolved input declarations (each appears exactly once, none added or
dropped) and its names are pairwise distinct. -/
theorem buildIR_permutation (ds : List TSDeclaration)
    (all out : List IntermediateDeclaration)
    (h1 : resolveDeclarationList ds [] [] = .ok all)
    (h2 : buildIntermediateRepresentation ds = .ok out) :
    List.Perm out all ∧ (declNames out).Nodup := by
  have hs : sortDeclarationsByDependencies all = .ok out :=
    (build_eq_sort h1).symm.trans h2
  have := sortDecls_ok all out
    (resolveDeclarationList_nodup ds [] [] all rfl List.nodup_nil h1) hs
  exact ⟨this.2.1, this.2.2⟩

/-- C10, witness: a permutation instance on a two-record input that the
builder reorders. -/
theorem buildIR_permutation_witness :
    resolveDeclarationList nestedFixtureTS [] [] = .ok nestedFixtureAll ∧
    buildIntermediateRepresentation nestedFixtureTS = .ok nestedFixtureOut ∧
    List.Perm nestedFixtureOut nestedFixtureAll ∧
    (declNames nestedFixtureOut).Nodup :=
  ⟨rfl, rfl,
    (buildIR_permutation nestedFixtureTS nestedFixtureAll nestedFixtureOut rfl rfl).1,
    (buildIR_permutation nestedFixtureTS nestedFixtureAll nestedFixtureOut rfl rfl).2⟩

/-- Helper: with the invariant bound on fuel and stack, `visit` never runs
out of fuel. -/
theorem visit_no_outOfFuel (all : List IntermediateDeclaration) :
    ∀ fuel decl st, st.visiting.Nodup → (∀ v ∈ st.visiting, v ∈ declNames all) →
      decl.name ∈ declNames all →
      (declNames all).dedup.length + 1 ≤ fuel + st.visiting.length →
      visit all fuel decl st ≠ .error .outOfFuel := by
  intro fuel
  induction fuel with
  | zero =>
    intro decl st hnd hsub _ hb _
    have h1 : st.visiting.toFinset.card = st.visiting.length := by
      rw [List.card_toFinset, hnd.dedup]
    have h2 : st.visiting.toFinset ⊆ (declNames all).toFinset := by
      intro x hx
      exact List.mem_toFinset.mpr (hsub x (List.mem_toFinset.mp hx))
    have h3 : (declNames all).toFinset.card = (declNames all).dedup.length :=
      List.card_toFinset _
    have := Finset.card_le_card h2
    omega
  | succ fuel ih =>
    intro decl st hnd hsub hdn hb h
    simp only [visit] at h
    by_cases h1 : decl.name ∈ st.visiting
    · rw [if_pos h1] at h; simp at h
    · rw [if_neg h1] at h
      by_cases h2 : decl.name ∈ st.visited
      · rw [if_pos h2] at h; simp at h
      · rw [if_neg h2] at h
        have hlist : ∀ deps st0, st0.visiting = decl.name :: st.visiting →
            visitDeps all (fun d s => visit all fuel d s) deps st0 ≠
              .error .outOfFuel := by
          intro deps
          induction deps with
          | nil => intro st0 _ hh; simp [visitDeps] at hh
          | cons x rest ihr =>
            intro st0 hv0 hh
            simp only [visitDeps] at hh
            cases hl : lookupDecl all x with
            | none =>
              rw [hl] at hh
              dsimp only at hh
              exact ihr st0 hv0 hh
            | some dd =>
              rw [hl] at hh
              dsimp only at hh
              cases hv : visit all fuel dd st0 with
              | error e =>
                rw [hv] at hh
                injection hh with hh
                subst hh
                obtain ⟨hdm, _⟩ := lookupDecl_some_mem hl
                refine ih dd st0 ?_ ?_ ?_ ?_ hv
                · rw [hv0]; exact List.nodup_cons.mpr ⟨h1, hnd⟩
                · rw [hv0]
                  intro v hv'
                  rcases List.mem_cons.mp hv' with rfl | hv''
                  · exact hdn
                  · exact hsub v hv''
                · exact List.mem_map_of_mem _ hdm
                · rw [hv0]
                  simp only [List.length_cons]
                  omega
              | ok st1 =>
                rw [hv] at hh
                exact ihr st1
                  ((visit_ok_visiting all fuel dd st0 st1 hv).trans hv0) hh
        cases hd : visitDeps all (fun d s => visit all fuel d s)
            (collectDependencies decl)
            { st with visiting := decl.name :: st.visiting } with
        | error e =>
          rw [hd] at h
          injection h with h
          subst h
          exact hlist (collectDependencies decl) _ rfl hd
        | ok st2 => rw [hd] at h; simp at h

/-- Helper: the fuel chosen by `sortDeclarationsByDependencies` is never
exhausted. -/
theorem visitAllDecls_no_outOfFuel (all : List IntermediateDeclaration) :
    ∀ ds st, st.visiting = [] → (∀ d ∈ ds, d ∈ all) →
      visitAllDecls all (all.length + 1) ds st ≠ .error .outOfFuel := by
  intro ds
  induction ds with
  | nil => intro st _ _ h; simp [visitAllDecls] at h
  | cons d rest ih =>
    intro st hse hsub h
    simp only [visitAllDecls] at h
    cases hv : visit all (all.length + 1) d st with
    | error e =>
      rw [hv] at h
      injection h with h
      subst h
      refine visit_no_outOfFuel all (all.length + 1) d st ?_ ?_ ?_ ?_ hv
      · rw [hse]; exact List.nodup_nil
      · rw [hse]; intro v hv'; cases hv'
      · exact List.mem_map_of_mem _ (hsub d (List.mem_cons_self d rest))
      · rw [hse]
        have hd1 : (declNames all).dedup.length ≤ (declNames all).length :=
          (List.dedup_sublist _).length_le
        have hd2 : (declNames all).length = all.length := List.length_map _ _
        simp only [List.length_nil]
        omega
    | ok st1 =>
      rw [hv] at h
      exact ih st1 ((visit_ok_visiting all _ d st st1 hv).trans hse)
        (fun x hx => hsub x (List.mem_cons_of_mem d hx)) h

/-- Helper: when `visit` fails, the failure is a circular-dependency error
naming a node that lies on a reference cycle (or the modelling artifact of
fuel exhaustion, excluded separately). -/
theorem visit_error_sound (all : List IntermediateDeclaration) :
    ∀ fuel decl st e, StackChain all st.visiting →
      (∀ hd rest, st.visiting = hd :: rest → Edge all hd decl.name) →
      lookupDecl all decl.name = some decl →
      visit all fuel decl st = .error e →
      (∃ n, e = .circularDependency n ∧ OnCycle all n) ∨ e = .outOfFuel := by
  intro fuel
  induction fuel with
  | zero =>
    intro decl st e _ _ _ h
    injection h with h
    exact Or.inr h.symm
  | succ fuel ih =>
    intro decl st e hchain hlink hlk h
    simp only [visit] at h
    by_cases h1 : decl.name ∈ st.visiting
    · rw [if_pos h1] at h
      injection h with h
      left
      refine ⟨decl.name, h.symm, ?_⟩
      cases hsv : st.visiting with
      | nil => rw [hsv] at h1; cases h1
      | cons hd0 rest0 =>
        exact reaches_step (stackChain_reaches hchain h1 hsv) (hlink hd0 rest0 hsv)
    · rw [if_neg h1] at h
      by_cases h2 : decl.name ∈ st.visited
      · rw [if_pos h2] at h; cases h
      · rw [if_neg h2] at h
        have hlist : ∀ deps st0 e0, st0.visiting = decl.name :: st.visiting →
            StackChain all st0.visiting →
            (∀ x ∈ deps, x ∈ collectDependencies decl) →
            visitDeps all (fun d s => visit all fuel d s) deps st0 = .error e0 →
            (∃ n, e0 = .circularDependency n ∧ OnCycle all n) ∨ e0 = .outOfFuel := by
          intro deps
          induction deps with
          | nil => intro st0 e0 _ _ _ hh; simp [visitDeps] at hh
          | cons x rest ihr =>
            intro st0 e0 hv0 hch0 hsubd hh
            simp only [visitDeps] at hh
            cases hl : lookupDecl all x with
            | none =>
              rw [hl] at hh
              dsimp only at hh
              exact ihr st0 e0 hv0 hch0
                (fun y hy => hsubd y (List.mem_cons_of_mem _ hy)) hh
            | some dd =>
              rw [hl] at hh
              dsimp only at hh
              obtain ⟨hdm, hdn⟩ := lookupDecl_some_mem hl
              cases hv : visit all fuel dd st0 with
              | error e1 =>
                rw [hv] at hh
                injection hh with hh
                subst hh
                refine ih dd st0 e1 hch0 ?_ (hdn ▸ hl) hv
                intro hd0 rest0 heq
                rw [hv0] at heq
                injection heq with ha hb
                subst ha
                exact ⟨decl, hlk, hdn ▸ hsubd x (List.mem_cons_self x rest)⟩
              | ok st1 =>
                rw [hv] at hh
                have hres := visit_ok_visiting all fuel dd st0 st1 hv
                exact ihr st1 e0 (hres.trans hv0) (hres ▸ hch0)
                  (fun y hy => hsubd y (List.mem_cons_of_mem _ hy)) hh
        cases hd : visitDeps all (fun d s => visit all fuel d s)
            (collectDependencies decl)
            { st with visiting := decl.name :: st.visiting } with
        | error e0 =>
          rw [hd] at h
          injection h with h
          subst h
          refine hlist (collectDependencies decl) _ _ rfl ?_ (fun y hy => hy) hd
          show StackChain all (decl.name :: st.visiting)
          cases hsv : st.visiting with
          | nil => trivial
          | cons hd0 rest0 =>
            exact ⟨hlink hd0 rest0 hsv, hsv ▸ hchain⟩
        | ok st2 => rw [hd] at h; cases h

/-- Helper: errors of the top-level loop are circular-dependency errors
naming a node on a cycle (or fuel exhaustion). -/
theorem visitAllDecls_error_sound (all : List IntermediateDeclaration)
    (hN : (declNames all).Nodup) (fuel : Nat) :
    ∀ ds st e, st.visiting = [] → (∀ d ∈ ds, d ∈ all) →
      visitAllDecls all fuel ds st = .error e →
      (∃ n, e = .circularDependency n ∧ OnCycle all n) ∨ e = .outOfFuel := by
  intro ds
  induction ds with
  | nil => intro st e _ _ h; simp [visitAllDecls] at h
  | cons d rest ih =>
    intro st e hse hsub h
    simp only [visitAllDecls] at h
    cases hv : visit all fuel d st with
    | error e1 =>
      rw [hv] at h
      injection h with h
      subst h
      refine visit_error_sound all fuel d st e1 ?_ ?_ ?_ hv
      · rw [hse]; trivial
      · intro hd0 rest0 heq
        rw [hse] at heq
        cases heq
      · exact lookupDecl_mem_nodup hN (hsub d (List.mem_cons_self d rest))
    | ok st1 =>
      rw [hv] at h
      exact ih st1 e ((visit_ok_visiting all fuel d st st1 hv).trans hse)
        (fun x hx => hsub x (List.mem_cons_of_mem d hx)) h

/-- Helper: in a dependency-first output, each edge strictly decreases the
position. -/
theorem edge_pos_decrease (all out : List IntermediateDeclaration)
    (hN : (declNames out).Nodup) (hperm : List.Perm out all)
    (hdeps : DepsBeforeList all out []) {a b : String}
    (hedge : Edge all a b) (hb : b ∈ declNames all) :
    namePos (declNames out) b < namePos (declNames out) a := by
  obtain ⟨da, hda, hbdep⟩ := hedge
  obtain ⟨hdam, hdan⟩ := lookupDecl_some_mem hda
  have hdaout : da ∈ out := hperm.mem_iff.mpr hdam
  obtain ⟨l1, l2, hsplit⟩ := List.append_of_mem hdaout
  have hbpre : b ∈ declNames l1 := by
    have := depsBeforeList_split all l1 da l2 [] (hsplit ▸ hdeps) b hbdep hb
    simpa using this
  have hnames : declNames out = declNames l1 ++ da.name :: declNames l2 := by
    rw [hsplit]; simp
  have hna : da.name ∉ declNames l1 := by
    rw [hnames] at hN
    exact fun hmem =>
      (List.nodup_cons.mp (List.nodup_middle.mp hN)).1 (List.mem_append_left _ hmem)
  have hposa : namePos (declNames out) a = (declNames l1).length := by
    rw [hnames, ← hdan]
    exact namePos_append_self hna
  have hposb : namePos (declNames out) b < (declNames l1).length := by
    rw [hnames, namePos_append_left _ hbpre]
    exact namePos_lt_length hbpre
  omega

/-- Helper: positions strictly decrease along any path of a dependency-first
output, so no node can reach itself. -/
theorem path_pos_decrease (all out : List IntermediateDeclaration)
    (hN : (declNames out).Nodup) (hperm : List.Perm out all)
    (hdeps : DepsBeforeList all out []) :
    ∀ (ws : List String) (a b : String), PathFrom all a ws b → b ∈ declNames all →
      namePos (declNames out) b < namePos (declNames out) a := by
  intro ws
  induction ws with
  | nil => intro a b hp hb; exact edge_pos_decrease all out hN hperm hdeps hp hb
  | cons w ws ih =>
    intro a b hp hb
    obtain ⟨hedge, hrest⟩ := hp
    have hw : w ∈ declNames all := pathFrom_src_mem hrest
    exact lt_trans (ih w b hrest hb) (edge_pos_decrease all out hN hperm hdeps hedge hw)

/-- Helper: a reference cycle rules out a successful sort. -/
theorem sort_not_ok_of_cycle (all : List IntermediateDeclaration)
    (hN : (declNames all).Nodup) (a : String) (hc : OnCycle all a)
    (out : List IntermediateDeclaration) :
    sortDeclarationsByDependencies all ≠ .ok out := by
  intro h
  obtain ⟨hdeps, hperm, hnodup⟩ := sortDecls_ok all out hN h
  obtain ⟨ws, hp⟩ := hc
  have ha : a ∈ declNames all := pathFrom_src_mem hp
  exact lt_irrefl _ (path_pos_decrease all out hnodup hperm hdeps ws a a hp ha)

/-- C2.  a reference cycle among the resolved declarations makes the builder
raise the circular-dependency error, naming a node that lies on a cycle; it
never returns an ordered list. -/
theorem buildIR_cycle_detected (ds : List TSDeclaration)
    (all : List IntermediateDeclaration) (a : String)
    (h1 : resolveDeclarationList ds [] [] = .ok all) (h2 : OnCycle all a) :
    ∃ n, buildIntermediateRepresentation ds = .error (.circularDependency n) ∧
      OnCycle all n := by
  have hb := build_eq_sort h1
  have hN := resolveDeclarationList_nodup ds [] [] all rfl List.nodup_nil h1
  cases hs : sortDeclarationsByDependencies all with
  | ok out => exact absurd hs (sort_not_ok_of_cycle all hN a h2 out)
  | error e =>
    have hsound : (∃ n, e = .circularDependency n ∧ OnCycle all n) ∨ e = .outOfFuel := by
      unfold sortDeclarationsByDependencies at hs
      cases hv : visitAllDecls all (all.length + 1) all ⟨[], [], []⟩ with
      | ok st => rw [hv] at hs; cases hs
      | error e1 =>
        rw [hv] at hs
        injection hs with hs
        subst hs
        exact visitAllDecls_error_sound all hN (all.length + 1) all ⟨[], [], []⟩
          e1 rfl (fun d hd => hd) hv
    rcases hsound with ⟨n, rfl, hcyc⟩ | rfl
    · exact ⟨n, by rw [hb, hs], hcyc⟩
    · exfalso
      unfold sortDeclarationsByDependencies at hs
      cases hv : visitAllDecls all (all.length + 1) all ⟨[], [], []⟩ with
      | ok st => rw [hv] at hs; cases hs
      | error e1 =>
        rw [hv] at hs
        injection hs with hs
        subst hs
        exact visitAllDecls_no_outOfFuel all all ⟨[], [], []⟩ rfl (fun d hd => hd) hv

/-- C2, witness: the mutually-referencing interfaces `A` and `B` raise the
circular-dependency error mentioning `A`, and `A` lies on the cycle. -/
theorem buildIR_cycle_detected_witness :
    resolveDeclarationList circularFixtureTS [] [] = .ok circularFixtureAll ∧
    OnCycle circularFixtureAll "A" ∧
    buildIntermediateRepresentation circularFixtureTS =
      .error (.circularDependency "A") ∧
    ∃ n, buildIntermediateRepresentation circularFixtureTS =
        .error (.circularDependency n) ∧ OnCycle circularFixtureAll n := by
  have hcyc : OnCycle circularFixtureAll "A" :=
    ⟨["B"],
      ⟨.record ⟨"A", [⟨"b", .record "B", false⟩]⟩, rfl, by decide⟩,
      ⟨.record ⟨"B", [⟨"a", .record "A", false⟩]⟩, rfl, by decide⟩⟩
  exact ⟨rfl, hcyc, rfl,
    buildIR_cycle_detected circularFixtureTS circularFixtureAll "A" rfl hcyc⟩

/-- Helper: when the remaining declarations resolve to a name list with a
repetition, or to a name already seen, the resolution pass fails with a
duplicate-declaration error carrying such a name. -/
theorem resolveDeclarationList_dup (ds : List TSDeclaration)
    (rs : List IntermediateDeclaration)
    (hf : List.Forall₂ (fun d r => resolveDeclaration d = .ok r) ds rs) :
    ∀ seen acc, (¬ (declNames rs).Nodup ∨ ∃ n ∈ seen, n ∈ declNames rs) →
      ∃ m, resolveDeclarationList ds seen acc = .error (.duplicateDeclaration m) ∧
        (2 ≤ (declNames rs).count m ∨ (m ∈ seen ∧ m ∈ declNames rs)) := by
  induction hf with
  | nil =>
    intro seen acc hcond
    rcases hcond with hnd | ⟨n, _, hn⟩
    · exact absurd List.nodup_nil hnd
    · simp at hn
  | @cons d r ds' rs' hd htl ih =>
    intro seen acc hcond
    simp only [resolveDeclarationList, hd]
    by_cases hmem : r.name ∈ seen
    · rw [if_pos hmem]
      exact ⟨r.name, rfl, Or.inr ⟨hmem, by simp⟩⟩
    · rw [if_neg hmem]
      have hcond' : ¬ (declNames rs').Nodup ∨ ∃ n ∈ r.name :: seen, n ∈ declNames rs' := by
        rcases hcond with hnd | ⟨n, hns, hnr⟩
        · by_cases hr : r.name ∈ declNames rs'
          · exact Or.inr ⟨r.name, List.mem_cons_self _ _, hr⟩
          · refine Or.inl fun hn => hnd ?_
            simpa using List.nodup_cons.mpr ⟨hr, hn⟩
        · rcases List.mem_cons.mp (by simpa using hnr) with heq | hnr'
          · exact absurd (heq ▸ hns) hmem
          · exact Or.inr ⟨n, List.mem_cons_of_mem _ hns, hnr'⟩
      obtain ⟨m, hres, hcase⟩ := ih (r.name :: seen) (acc ++ [r]) hcond'
      refine ⟨m, hres, ?_⟩
      rcases hcase with h2c | ⟨hms, hmr⟩
      · refine Or.inl (le_trans h2c ?_)
        simp only [declNames_cons]
        exact (List.sublist_cons_self r.name (declNames rs')).count_le m
      · rcases List.mem_cons.mp hms with rfl | hms'
        · refine Or.inl ?_
          simp only [declNames_cons, List.count_cons_self]
          have := List.count_pos_iff.mpr hmr
          omega
        · exact Or.inr ⟨hms', List.mem_cons_of_mem _ hmr⟩

/-- C3.  two input declarations (of any kinds) resolving to the same name
make the builder fail with the duplicate-declaration error carrying a
duplicated name — with no acyclicity assumption on the input, so the
duplicate check decides the outcome before any sorting could. -/
theorem buildIR_duplicate_error (ds : List TSDeclaration)
    (rs : List IntermediateDeclaration)
    (hf : List.Forall₂ (fun d r => resolveDeclaration d = .ok r) ds rs)
    (hdup : ¬ (declNames rs).Nodup) :
    ∃ n, buildIntermediateRepresentation ds = .error (.duplicateDeclaration n) ∧
      2 ≤ (declNames rs).count n := by
  obtain ⟨m, hres, hcase⟩ := resolveDeclarationList_dup ds rs hf [] [] (Or.inl hdup)
  refine ⟨m, ?_, ?_⟩
  · unfold buildIntermediateRepresentation
    rw [hres]
  · rcases hcase with h | ⟨hm, _⟩
    · exact h
    · simp at hm

/-- C3, witness: the cross-kind `namingConflict` fixture (an interface and an
enum both named `Status`) raises the duplicate-declaration error carrying
`Status`. -/
theorem buildIR_duplicate_error_witness :
    List.Forall₂ (fun d r => resolveDeclaration d = .ok r)
      duplicateFixtureTS duplicateFixtureRS ∧
    ¬ (declNames duplicateFixtureRS).Nodup ∧
    buildIntermediateRepresentation duplicateFixtureTS =
      .error (.duplicateDeclaration "Status") ∧
    ∃ n, buildIntermediateRepresentation duplicateFixtureTS =
        .error (.duplicateDeclaration n) ∧ 2 ≤ (declNames duplicateFixtureRS).count n := by
  have hf : List.Forall₂ (fun d r => resolveDeclaration d = .ok r)
      duplicateFixtureTS duplicateFixtureRS :=
    List.Forall₂.cons rfl (List.Forall₂.cons rfl List.Forall₂.nil)
  exact ⟨hf, by decide, rfl,
    buildIR_duplicate_error duplicateFixtureTS duplicateFixtureRS hf (by decide)⟩

end ExpoCodegen
